import Mathlib

/-!
# A verification model of the binary-walkr link-graph engine

This file gives a shallow embedding, in Lean, of the core of the
binary-walkr repository (src/summarize.rs, src/search_path.rs,
src/dependencies.rs, src/resolve_symbols.rs, src/ui/app.rs) and proves
properties of that embedding.

Modelling conventions:
* Rust machine integers become `Nat` (no arithmetic in the modelled code
  overflows its Rust width on the inputs considered).
* Filesystem paths become `String`; `Path::join` of a directory and a
  relative component is modelled by `pjoin`.
* The filesystem, as observed through `summarize_path`, is modelled by a
  finite association list `Env` classifying each existing path by how its
  contents decode (not an ELF at all / ELF whose summarization fails /
  ELF with a given summary).  This abstracts the byte-level parsing done
  by the external `object` crate, which is out of the repository.
* Fallible Rust code returns `Except`/`Option`; a Rust panic
  (`unimplemented!()` in `summarize_path`) is modelled by an explicit
  abnormal outcome that propagates, as unwinding does.
* `BTreeMap<String, _>` is modelled by an association list kept sorted by
  key (`btInsert`); `BTreeMap<VersionedSymbol, _>` by an association list
  where the most recent insertion shadows older ones (`symInsert` /
  `symLookup`), which models insert-overwrites-and-lookup exactly.
* `HashSet<String>` is modelled by a duplicate-free `List String` used
  only through membership and insertion.
-/

namespace BinaryWalkr

/-- Model of Rust `Path::join` for a directory and a relative file name. -/
def pjoin (dir file : String) : String := dir ++ "/" ++ file

/-! ## UTF-8 decoding

Models of Rust `String::from_utf8` (strict) and `String::from_utf8_lossy`
(replacement of each maximal subpart of an ill-formed subsequence by
U+FFFD), following the UTF-8 well-formedness table of the Unicode
standard, which those Rust functions implement. -/

/-- Is `b` a UTF-8 continuation byte (0x80 to 0xBF)? -/
def utf8Cont (b : Nat) : Bool := decide (0x80 ≤ b ∧ b ≤ 0xBF)

/-- Is `b1` a well-formed second byte for the lead byte `b0` of a
three-byte sequence?  (0xE0 and 0xED restrict the range.) -/
def utf8Second3 (b0 b1 : Nat) : Bool :=
  if b0 = 0xE0 then decide (0xA0 ≤ b1 ∧ b1 ≤ 0xBF)
  else if b0 = 0xED then decide (0x80 ≤ b1 ∧ b1 ≤ 0x9F)
  else utf8Cont b1

/-- Is `b1` a well-formed second byte for the lead byte `b0` of a
four-byte sequence?  (0xF0 and 0xF4 restrict the range.) -/
def utf8Second4 (b0 b1 : Nat) : Bool :=
  if b0 = 0xF0 then decide (0x90 ≤ b1 ∧ b1 ≤ 0xBF)
  else if b0 = 0xF4 then decide (0x80 ≤ b1 ∧ b1 ≤ 0x8F)
  else utf8Cont b1

/-- Code point of a two-byte sequence. -/
def utf8Cp2 (b0 b1 : Nat) : Nat := (b0 - 0xC0) * 0x40 + (b1 - 0x80)

/-- Code point of a three-byte sequence. -/
def utf8Cp3 (b0 b1 b2 : Nat) : Nat :=
  (b0 - 0xE0) * 0x1000 + (b1 - 0x80) * 0x40 + (b2 - 0x80)

/-- Code point of a four-byte sequence. -/
def utf8Cp4 (b0 b1 b2 b3 : Nat) : Nat :=
  (b0 - 0xF0) * 0x40000 + (b1 - 0x80) * 0x1000 + (b2 - 0x80) * 0x40 + (b3 - 0x80)

/-- Strict UTF-8 decoding of a byte sequence into characters; `none` on
any ill-formed input.  Models the validation done by
`String::from_utf8`. -/
def utf8Chars : List Nat → Option (List Char)
  | [] => some []
  | b0 :: rest =>
    if b0 < 0x80 then
      (utf8Chars rest).map (fun cs => Char.ofNat b0 :: cs)
    else if b0 < 0xC2 then none
    else if b0 ≤ 0xDF then
      match rest with
      | [] => none
      | b1 :: rest1 =>
        if utf8Cont b1 then
          (utf8Chars rest1).map (fun cs => Char.ofNat (utf8Cp2 b0 b1) :: cs)
        else none
    else if b0 ≤ 0xEF then
      match rest with
      | b1 :: b2 :: rest2 =>
        if utf8Second3 b0 b1 && utf8Cont b2 then
          (utf8Chars rest2).map (fun cs => Char.ofNat (utf8Cp3 b0 b1 b2) :: cs)
        else none
      | _ => none
    else if b0 ≤ 0xF4 then
      match rest with
      | b1 :: b2 :: b3 :: rest3 =>
        if utf8Second4 b0 b1 && utf8Cont b2 && utf8Cont b3 then
          (utf8Chars rest3).map (fun cs => Char.ofNat (utf8Cp4 b0 b1 b2 b3) :: cs)
        else none
      | _ => none
    else none

/-- Model of Rust `String::from_utf8`: `none` on invalid UTF-8. -/
def utf8DecodeStrict (bytes : List Nat) : Option String :=
  (utf8Chars bytes).map fun cs => String.mk cs

/-- The U+FFFD replacement character used by lossy decoding. -/
def utf8Repl : Char := Char.ofNat 0xFFFD

/-- Lossy UTF-8 decoding: each maximal subpart of an ill-formed
subsequence becomes one U+FFFD.  Models `String::from_utf8_lossy`. -/
def utf8LossyChars : List Nat → List Char
  | [] => []
  | b0 :: rest =>
    if b0 < 0x80 then Char.ofNat b0 :: utf8LossyChars rest
    else if b0 < 0xC2 then utf8Repl :: utf8LossyChars rest
    else if b0 ≤ 0xDF then
      match rest with
      | [] => [utf8Repl]
      | b1 :: rest1 =>
        if utf8Cont b1 then Char.ofNat (utf8Cp2 b0 b1) :: utf8LossyChars rest1
        else utf8Repl :: utf8LossyChars (b1 :: rest1)
    else if b0 ≤ 0xEF then
      match rest with
      | [] => [utf8Repl]
      | b1 :: rest1 =>
        if utf8Second3 b0 b1 then
          match rest1 with
          | [] => [utf8Repl]
          | b2 :: rest2 =>
            if utf8Cont b2 then Char.ofNat (utf8Cp3 b0 b1 b2) :: utf8LossyChars rest2
            else utf8Repl :: utf8LossyChars (b2 :: rest2)
        else utf8Repl :: utf8LossyChars (b1 :: rest1)
    else if b0 ≤ 0xF4 then
      match rest with
      | [] => [utf8Repl]
      | b1 :: rest1 =>
        if utf8Second4 b0 b1 then
          match rest1 with
          | [] => [utf8Repl]
          | b2 :: rest2 =>
            if utf8Cont b2 then
              match rest2 with
              | [] => [utf8Repl]
              | b3 :: rest3 =>
                if utf8Cont b3 then Char.ofNat (utf8Cp4 b0 b1 b2 b3) :: utf8LossyChars rest3
                else utf8Repl :: utf8LossyChars (b3 :: rest3)
            else utf8Repl :: utf8LossyChars (b2 :: rest2)
        else utf8Repl :: utf8LossyChars (b1 :: rest1)
    else utf8Repl :: utf8LossyChars rest

/-- Model of Rust `String::from_utf8_lossy` (total). -/
def utf8DecodeLossy (bytes : List Nat) : String := String.mk (utf8LossyChars bytes)

/-! ## Data model (src/summarize.rs) -/

/-- Model of `object::Endianness`. -/
inductive Endianness
  | little
  | big
deriving DecidableEq

/-- A (possibly) versioned symbol (`VersionedSymbol` in src/summarize.rs). -/
structure VersionedSymbol where
  name : String
  version : Option String
deriving DecidableEq

/-- Model of `SymbolType` in src/summarize.rs. -/
inductive SymbolType
  | Func
  | Object
  | Common
  | NoType
  | File
  | Unknown
deriving DecidableEq

/-- Model of `SymbolBinding` in src/summarize.rs. -/
inductive SymbolBinding
  | Local
  | Global
  | Weak
  | Unknown
deriving DecidableEq

/-- A reference to an external dynamic symbol in a binary
(`DynamicSymbolReference` in src/summarize.rs). -/
structure DynamicSymbolReference where
  symbol : VersionedSymbol
  type_ : SymbolType
  binding : SymbolBinding
deriving DecidableEq

/-- A dynamic symbol provided by this binary (`ExportedDynamicSymbol`
in src/summarize.rs). -/
structure ExportedDynamicSymbol where
  symbol : VersionedSymbol
  type_ : SymbolType
  binding : SymbolBinding
  size : Nat
  address : Nat
deriving DecidableEq

/-- The dynamic-linking interface of one image (`DynamicData`). -/
structure DynamicData where
  dynamic_symbol_refs : List DynamicSymbolReference
  provided_dynamic_symbols : List ExportedDynamicSymbol
  deps : List String
deriving DecidableEq

/-- Model of `BinaryType` in src/summarize.rs. -/
inductive BinaryType
  | Static
  | Dynamic (d : DynamicData)
deriving DecidableEq

/-- Model of `Section` in src/summarize.rs. -/
structure Section where
  name : String
  address : Nat
  alignment : Nat
  offset : Nat
  size : Nat
  type_ : Nat
  flags : Nat
deriving DecidableEq

/-- Model of `Segment` in src/summarize.rs. -/
structure Segment where
  type_ : Nat
  flags : Nat
  offset : Nat
  vaddr : Nat
  paddr : Nat
  file_size : Nat
  mem_size : Nat
  alignment : Nat
deriving DecidableEq

/-- Model of `ElfSummary` in src/summarize.rs. -/
structure ElfSummary where
  endianness : Endianness
  bit_size : Nat
  filename : String
  binary_type : BinaryType
  sections : List Section
  segments : List Segment
deriving DecidableEq

/-! ## ELF constants (values fixed by the ELF specification, as used via
the `object` crate in src/summarize.rs) -/

def DT_NEEDED : Nat := 1
def STT_NOTYPE : Nat := 0
def STT_OBJECT : Nat := 1
def STT_FUNC : Nat := 2
def STT_FILE : Nat := 4
def STT_COMMON : Nat := 5
def STB_LOCAL : Nat := 0
def STB_GLOBAL : Nat := 1
def STB_WEAK : Nat := 2

/-- Model of `SymbolType::new` in src/summarize.rs. -/
def SymbolType.new (ty : Nat) : SymbolType :=
  if ty = STT_FUNC then .Func
  else if ty = STT_OBJECT then .Object
  else if ty = STT_COMMON then .Common
  else if ty = STT_NOTYPE then .NoType
  else if ty = STT_FILE then .File
  else .Unknown

/-- Model of `SymbolBinding::new` in src/summarize.rs. -/
def SymbolBinding.new (b : Nat) : SymbolBinding :=
  if b = STB_LOCAL then .Local
  else if b = STB_WEAK then .Weak
  else if b = STB_GLOBAL then .Global
  else .Unknown

/-! ## Decoder internals (src/summarize.rs, `analyze_dependencies`)

The `object` crate accessors are modelled after the image's endianness
has been applied: every multi-byte field is already a `Nat`. -/

/-- Model of `object::read::StringTable::get`: the bytes from `off` up to
(excluding) the first NUL; an error when `off` is out of bounds or no NUL
terminator follows it. -/
def strGet (tbl : List Nat) (off : Nat) : Except Unit (List Nat) :=
  let t := tbl.drop off
  if t.contains 0 then .ok (t.takeWhile fun b => b != 0) else .error ()

/-- One entry of the dynamic section, as observed through the `object`
crate in `analyze_dependencies`: `tag` is the result of `Dyn::tag32`
(`none` when the 64-bit tag does not fit in 32 bits) and `val` the
entry's value, used by `Dyn::string` as an offset into `.dynstr`. -/
structure DynEntry where
  tag : Option Nat
  val : Nat
deriving DecidableEq

/-- The decode of one `DT_NEEDED` entry: fetch the string bytes from
`.dynstr` (`d.string(end, dyn_strings)?`), then strict UTF-8
(`String::from_utf8(...)?`). -/
def decodeNeeded (strtab : List Nat) (d : DynEntry) : Except Unit String :=
  match strGet strtab d.val with
  | .error e => .error e
  | .ok bytes =>
    match utf8DecodeStrict bytes with
    | none => .error ()
    | some s => .ok s

/-- The `DT_NEEDED` collection loop of `analyze_dependencies`
(src/summarize.rs lines 163-174): scan the dynamic entries in order,
and for each entry whose 32-bit tag is `DT_NEEDED` fetch and strictly
decode the name, pushing it onto the accumulated list; any fetch or
UTF-8 failure aborts the whole decode with an error. -/
def collectNeeded (strtab : List Nat) : List DynEntry → List String → Except Unit (List String)
  | [], acc => .ok acc
  | d :: rest, acc =>
    match d.tag with
    | none => collectNeeded strtab rest acc
    | some tag =>
      if tag = DT_NEEDED then
        match strGet strtab d.val with
        | .error e => .error e
        | .ok bytes =>
          match utf8DecodeStrict bytes with
          | none => .error ()
          | some s => collectNeeded strtab rest (acc ++ [s])
      else collectNeeded strtab rest acc

/-- One entry of `.dynsym` as observed through the `object` crate:
`st_name` is the `.dynstr` offset, `st_info` packs binding and type,
`st_shndx` is the section index (0 = undefined). -/
structure SymEntry where
  st_name : Nat
  st_info : Nat
  st_shndx : Nat
  st_value : Nat
  st_size : Nat
deriving DecidableEq

/-- Model of `Sym::st_type`: low nibble of `st_info`. -/
def SymEntry.st_type (s : SymEntry) : Nat := s.st_info % 16

/-- Model of `Sym::st_bind`: high nibble of `st_info`. -/
def SymEntry.st_bind (s : SymEntry) : Nat := s.st_info / 16

/-- Model of `Sym::is_undefined`: the section index is `SHN_UNDEF` (0). -/
def SymEntry.is_undefined (s : SymEntry) : Bool := s.st_shndx == 0

/-- Model of `VersionedSymbol::new` (src/summarize.rs lines 24-37): the name is
fetched from the dynamic string table and decoded lossily; if the fetch
fails the name is the sentinel `"<Error>"`; the version is always
absent. -/
def VersionedSymbol.new (dyn_strings : List Nat) (sym : SymEntry) : VersionedSymbol :=
  { name :=
      match strGet dyn_strings sym.st_name with
      | .error _ => "<Error>"
      | .ok bytes => utf8DecodeLossy bytes,
    version := none }

/-- The `.dynsym` iteration of `analyze_dependencies` (src/summarize.rs
lines 183-206): build a `VersionedSymbol` for each entry, skip entries
whose name is empty, and classify the rest as imported (undefined) or
exported, in table order. -/
def analyzeSymbols (dyn_strings : List Nat) :
    List SymEntry → List DynamicSymbolReference × List ExportedDynamicSymbol
  | [] => ([], [])
  | sym :: rest =>
    let sym_name := VersionedSymbol.new dyn_strings sym
    let tail := analyzeSymbols dyn_strings rest
    if sym_name.name = "" then tail
    else if sym.is_undefined then
      ({ symbol := sym_name
         type_ := SymbolType.new sym.st_type
         binding := SymbolBinding.new sym.st_bind } :: tail.1, tail.2)
    else
      (tail.1,
       { symbol := sym_name
         type_ := SymbolType.new sym.st_type
         binding := SymbolBinding.new sym.st_bind
         size := sym.st_size
         address := sym.st_value } :: tail.2)

/-! ## The decoder as seen by the resolver (src/summarize.rs, `summarize_path`)

`summarize_path` reads the file, tries a 64-bit header parse, then a
32-bit one, and on double failure runs `unimplemented!()` — a panic.
The filesystem is abstracted into a finite classification of paths:
* absent from `Env`: `fs::read` fails, so `summarize_path` returns `Err`;
* `notElf`: both header parses fail, so `summarize_path` panics
  (`unimplemented!()` at src/summarize.rs line 287);
* `elfBad`: a header parses but `summarize_elf` fails, so
  `summarize_path` returns `Err`;
* `elfOk s`: decoding succeeds with summary `s` (whose `filename` field
  is set from the queried path, as `summarize_elf` does). -/

/-- How the bytes at one path decode. -/
inductive FileClass
  | notElf
  | elfBad
  | elfOk (s : ElfSummary)
deriving DecidableEq

/-- A finite filesystem: existing paths and how their contents decode. -/
abbrev Env := List (String × FileClass)

/-- Look a path up in the modelled filesystem. -/
def classify : Env → String → Option FileClass
  | [], _ => none
  | (p, c) :: rest, q => if q = p then some c else classify rest q

/-- Outcome of `summarize_path`: a summary, an ordinary `Err`, or a
panic. -/
inductive DecodeOutcome
  | ok (s : ElfSummary)
  | err
  | panicked
deriving DecidableEq

/-- Model of `summarize_path` (src/summarize.rs lines 280-289). -/
def summarize_path (env : Env) (path : String) : DecodeOutcome :=
  match classify env path with
  | none => .err
  | some .notElf => .panicked
  | some .elfBad => .err
  | some (.elfOk s) => .ok { s with filename := path }

/-! ## The resolver (src/dependencies.rs) -/

/-- Outcome of `analyze_one_dependency`: first successful summary, a
`MissingLibraryDependency` error, or a propagating panic. -/
inductive ProbeResult
  | found (s : ElfSummary)
  | missing
  | panicked
deriving DecidableEq

/-- Model of `analyze_one_dependency` (src/dependencies.rs lines 12-28): probe
`<dir>/<name>` for each search-path directory in order; an `Err` from
`summarize_path` moves on to the next directory, the first `Ok` wins,
and a panic unwinds. -/
def analyze_one_dependency (env : Env) : List String → String → ProbeResult
  | [], _ => .missing
  | dir :: rest, lib_name =>
    match summarize_path env (pjoin dir lib_name) with
    | .ok summ => .found summ
    | .err => analyze_one_dependency env rest lib_name
    | .panicked => .panicked

/-- Model of `WorkQueue` in src/dependencies.rs: FIFO work list plus seen set. -/
structure WorkQueue where
  work_items : List String
  seen_items : List String
deriving DecidableEq

/-- One step of `WorkQueue::add_dependencies`: enqueue `dep` (at the
back) and mark it seen, unless already seen. -/
def addDep (q : WorkQueue) (dep : String) : WorkQueue :=
  if dep ∈ q.seen_items then q
  else { work_items := q.work_items ++ [dep], seen_items := dep :: q.seen_items }

/-- The needed-name list of a summary (empty for a static image). -/
def depsOf (summ : ElfSummary) : List String :=
  match summ.binary_type with
  | .Static => []
  | .Dynamic dyn_deps => dyn_deps.deps

/-- Model of `WorkQueue::add_dependencies` (src/dependencies.rs lines 43-58). -/
def WorkQueue.add_dependencies (q : WorkQueue) (summ : ElfSummary) : WorkQueue :=
  (depsOf summ).foldl addDep q

/-- The resolver's result map: `BTreeMap<String, Option<ElfSummary>>`
modelled as an association list sorted by key. -/
abbrev ResMap := List (String × Option ElfSummary)

/-- Model of `BTreeMap::insert` on the sorted association list. -/
def btInsert (k : String) (v : Option ElfSummary) : ResMap → ResMap
  | [] => [(k, v)]
  | (k', v') :: rest =>
    match compare k k' with
    | .lt => (k, v) :: (k', v') :: rest
    | .eq => (k, v) :: rest
    | .gt => (k', v') :: btInsert k v rest

/-- Outcome of the resolver: the finished map, or a propagated panic. -/
inductive LoopResult
  | done (res : ResMap)
  | panicked
deriving DecidableEq

/-- The `while let` loop of `resolve_dependencies` (src/dependencies.rs
lines 77-89), with explicit fuel; `none` means the fuel ran out before
the loop finished.  Each iteration pops one name, probes the search
path, records the outcome, and (on success) enqueues the new image's
unseen needed-names. -/
def resolveLoopFuel (env : Env) (sp : List String) :
    Nat → WorkQueue → ResMap → Option LoopResult
  | 0, _, _ => none
  | fuel + 1, q, res =>
    match q.work_items with
    | [] => some (.done res)
    | dep_name :: rest =>
      match analyze_one_dependency env sp dep_name with
      | .panicked => some .panicked
      | .missing => resolveLoopFuel env sp fuel ⟨rest, q.seen_items⟩ (btInsert dep_name none res)
      | .found dep_summary =>
        resolveLoopFuel env sp fuel
          (WorkQueue.add_dependencies ⟨rest, q.seen_items⟩ dep_summary)
          (btInsert dep_name (some dep_summary) res)

/-- All needed-names stored in summaries of the modelled filesystem. -/
def envDeps : Env → List String
  | [] => []
  | (_, FileClass.elfOk s) :: rest => depsOf s ++ envDeps rest
  | _ :: rest => envDeps rest

/-- A finite universe containing every name the walk can ever enqueue:
the root's needed-names and the needed-names of every decodable image in
the filesystem, without duplicates. -/
def uniNames (env : Env) (root : ElfSummary) : List String :=
  (depsOf root ++ envDeps env).dedup

/-- Enough fuel for the walk to finish (proved below). -/
def fuelBound (env : Env) (root : ElfSummary) : Nat :=
  3 * (uniNames env root).length + 1

/-- Model of `resolve_dependencies` (src/dependencies.rs lines 68-91): seed the
queue and the seen set with the root's needed list, then run the work
loop.  The fuel is an artifact of the embedding; the termination theorem
shows `fuelBound` always suffices. -/
def resolve_dependencies (env : Env) (sp : List String) (summ : ElfSummary) :
    Option LoopResult :=
  resolveLoopFuel env sp (fuelBound env summ)
    (WorkQueue.add_dependencies ⟨[], []⟩ summ) []

/-! ## Search path (src/search_path.rs) -/

/-- Split accumulator for `splitPaths`: walk the characters, cutting at
each `:`. -/
def splitPathsAux : List Char → String → List String
  | [], acc => [acc]
  | c :: rest, acc =>
    if c = ':' then acc :: splitPathsAux rest "" else splitPathsAux rest (acc.push c)

/-- Model of Rust std `env::split_paths` on Unix: split the raw value on
the `:` separator, as `slice::split` does.  Empty segments are kept; in
particular splitting the empty string yields one empty path. -/
def splitPaths (s : String) : List String := splitPathsAux s.data ""

/-- Model of `search_path` (src/search_path.rs lines 9-29).  The ambient
`LD_LIBRARY_PATH` lookup (`env::var`) is modelled by the explicit
argument `ld_library_path`; `none` models an unset (or non-Unicode)
variable, for which `env::var` returns `Err` and contributes nothing. -/
def search_path (sysroot : String) (ld_library_path : Option String)
    (_summ : ElfSummary) : List String :=
  (match ld_library_path with
   | none => []
   | some path_str => splitPaths path_str)
  ++ [pjoin sysroot "lib", pjoin sysroot "lib64",
      pjoin sysroot "usr/lib", pjoin sysroot "usr/lib64"]

/-! ## Symbol resolution (src/resolve_symbols.rs) -/

/-- Type of `BTreeMap<VersionedSymbol, &ElfSummary>` modelled as an association
list in which the most recent insertion comes first. -/
abbrev SymMap := List (VersionedSymbol × ElfSummary)

/-- Model of `BTreeMap::insert`: the new binding shadows any older one. -/
def symInsert (k : VersionedSymbol) (v : ElfSummary) (m : SymMap) : SymMap :=
  (k, v) :: m

/-- Model of `BTreeMap::get`: the most recently inserted value for the key. -/
def symLookup : SymMap → VersionedSymbol → Option ElfSummary
  | [], _ => none
  | (k', v) :: rest, k => if k = k' then some v else symLookup rest k

/-- The needed-symbol name set built from the imports
(src/resolve_symbols.rs lines 10-12). -/
def neededNames (dyn_sym_refs : List DynamicSymbolReference) : List String :=
  dyn_sym_refs.map fun r => r.symbol.name

/-- The per-dependency pass of `resolve_symbols` (lines 14-27): for every
symbol a dynamic dependency provides whose name is needed, insert it,
overwriting previous providers. -/
def insertProvides (needed_syms : List String) (m : SymMap) (dep : ElfSummary) : SymMap :=
  match dep.binary_type with
  | .Static => m
  | .Dynamic dyn_data =>
    dyn_data.provided_dynamic_symbols.foldl
      (fun acc defined_sym =>
        if defined_sym.symbol.name ∈ needed_syms then symInsert defined_sym.symbol dep acc
        else acc)
      m

/-- Model of `resolve_symbols` (src/resolve_symbols.rs lines 4-31). -/
def resolve_symbols (dyn_sym_refs : List DynamicSymbolReference)
    (deps : List ElfSummary) : SymMap :=
  deps.foldl (insertProvides (neededNames dyn_sym_refs)) []

/-- Does dependency `dep` write key `k` during its `resolve_symbols`
pass?  (It does iff it is dynamic and provides a symbol equal to `k`
whose name is needed.) -/
def writesSym (needed_syms : List String) (dep : ElfSummary) (k : VersionedSymbol) : Bool :=
  match dep.binary_type with
  | .Static => false
  | .Dynamic dyn_data =>
    dyn_data.provided_dynamic_symbols.any fun e =>
      e.symbol == k && decide (e.symbol.name ∈ needed_syms)

/-! ## The engine's merged provider map (src/ui/app.rs, `App::new`) -/

/-- Model of `resolved_deps.values().filter_map(|x| x.as_ref())`: the successfully
resolved dependency images, in result-map (needed-name) order. -/
def all_libs_of (resolved_deps : ResMap) : List ElfSummary :=
  resolved_deps.filterMap fun p => p.2

/-- Model of `BTreeMap::append`: all bindings of `other` are moved in, overwriting
bindings of `m` at common keys. -/
def btAppend (m other : SymMap) : SymMap := other ++ m

/-- The body of the `for lib in &all_libs` loop of `App::new`
(src/ui/app.rs): a static dependency contributes nothing; a dynamic one
has `resolve_symbols` run over its imports and the result appended. -/
def appStep (all_libs : List ElfSummary) (acc : SymMap) (lib : ElfSummary) : SymMap :=
  match lib.binary_type with
  | .Static => acc
  | .Dynamic dyn_data => btAppend acc (resolve_symbols dyn_data.dynamic_symbol_refs all_libs)

/-- The symbol-resolution merge of `App::new` (src/ui/app.rs): run
`resolve_symbols` over the root's imports, then once more over each
resolved dependency's imports, appending each map (later merges win). -/
def app_symbol_resolutions (elf_summary : ElfSummary) (resolved_deps : ResMap) : SymMap :=
  let all_libs := all_libs_of resolved_deps
  let base :=
    match elf_summary.binary_type with
    | .Static => []
    | .Dynamic dyn_data => resolve_symbols dyn_data.dynamic_symbol_refs all_libs
  all_libs.foldl (appStep all_libs) base

/-! ## Concrete fixtures used by closed theorems and witnesses -/

/-- A little-endian 64-bit dynamic image with the given interface. -/
def mkDyn (filename : String) (refs : List DynamicSymbolReference)
    (exports : List ExportedDynamicSymbol) (deps : List String) : ElfSummary :=
  { endianness := .little, bit_size := 64, filename := filename,
    binary_type := .Dynamic ⟨refs, exports, deps⟩, sections := [], segments := [] }

/-- A little-endian 64-bit static image. -/
def mkStatic (filename : String) : ElfSummary :=
  { endianness := .little, bit_size := 64, filename := filename,
    binary_type := .Static, sections := [], segments := [] }

/-- A filesystem whose only file is a readable non-ELF (e.g. plain text). -/
def envC3 : Env := [("input.txt", FileClass.notElf)]

/-- A dependency image with an empty interface. -/
def sampleLib : ElfSummary := mkDyn "orig" [] [] []

/-- Filesystem where `d1` holds a readable non-ELF file named `libn.so`; `d2` holds a
valid ELF of that name. -/
def envC1 : Env :=
  [(pjoin "d1" "libn.so", FileClass.notElf), (pjoin "d2" "libn.so", FileClass.elfOk sampleLib)]

/-- A root binary that needs `libn.so`. -/
def rootC1 : ElfSummary := mkDyn "root.bin" [] [] ["libn.so"]

/-- Fixture A: an image whose needed list is `[B]`. -/
def srcA : ElfSummary := mkDyn "srcA" [] [] ["B"]

/-- Fixture B: an image whose needed list is `[A]`. -/
def srcB : ElfSummary := mkDyn "srcB" [] [] ["A"]

/-- A search-path directory `d` holding the cycle `A needs B, B needs A`. -/
def envC8 : Env :=
  [(pjoin "d" "A", FileClass.elfOk srcA), (pjoin "d" "B", FileClass.elfOk srcB)]

/-- The root binary of the cycle fixture, as decoded from `d/A`. -/
def rootC8 : ElfSummary := mkDyn (pjoin "d" "A") [] [] ["B"]

/-- The summary of `d/B` as the resolver decodes it. -/
def depB8 : ElfSummary := mkDyn (pjoin "d" "B") [] [] ["A"]

/-- Two distinct valid images used for the first-hit witness. -/
def libX : ElfSummary := mkDyn "contentX" [] [] []

def libY : ElfSummary := mkDyn "contentY" [] [] []

/-- Both `D1` and `D2` contain a valid ELF named `libn.so`. -/
def envC5 : Env :=
  [(pjoin "D1" "libn.so", FileClass.elfOk libX), (pjoin "D2" "libn.so", FileClass.elfOk libY)]

/-- The symbol `foo`, unversioned. -/
def symFoo : VersionedSymbol := ⟨"foo", none⟩

/-- An import of `foo`. -/
def refFoo : DynamicSymbolReference := ⟨symFoo, .Func, .Global⟩

/-- An export of `foo`. -/
def expFoo : ExportedDynamicSymbol := ⟨symFoo, .Func, .Global, 8, 0x100⟩

/-- A resolved dependency that imports `foo` and exports nothing. -/
def depImporter : ElfSummary := mkDyn (pjoin "d" "libB.so") [refFoo] [] []

/-- A resolved dependency that exports `foo`. -/
def depExporter : ElfSummary := mkDyn (pjoin "d" "libC.so") [] [expFoo] []

/-- A static root: it has no imports of its own. -/
def rootStatic : ElfSummary := mkStatic "root.bin"

/-- A resolver result with two successfully resolved dependencies. -/
def resolvedC4 : ResMap :=
  [("libB.so", some depImporter), ("libC.so", some depExporter)]

/-- A plain summary for instantiating `search_path`'s unused argument. -/
def exElf : ElfSummary := mkStatic "ex"

/-! ## Helper lemmas -/

/-- A successful `summarize_path` comes from an `elfOk` classification and
stamps the queried path into the summary's `filename`. -/
theorem summarize_path_ok (env : Env) (path : String) (s : ElfSummary)
    (h : summarize_path env path = .ok s) :
    ∃ c, classify env path = some (FileClass.elfOk c) ∧ s = { c with filename := path } := by
  unfold summarize_path at h
  cases hc : classify env path with
  | none => rw [hc] at h; exact absurd h (by simp)
  | some fc =>
    cases fc with
    | notElf => rw [hc] at h; exact absurd h (by simp)
    | elfBad => rw [hc] at h; exact absurd h (by simp)
    | elfOk c =>
      rw [hc] at h
      simp only [DecodeOutcome.ok.injEq] at h
      exact ⟨c, rfl, h.symm⟩

/-! ## Claim theorems (first group) -/

/-- Claim C3 (code bug): for a path whose contents parse as neither a
64-bit nor a 32-bit ELF (a plain text file), `summarize_path` does not
surface an ordinary error value: it panics (`unimplemented!()` at
src/summarize.rs line 287).  The model evaluates the code at the failing
input and observes the panic outcome instead of `DecodeOutcome.err`. -/
theorem claim_C3_not_elf_root_panics :
    summarize_path envC3 "input.txt" = .panicked
      ∧ summarize_path envC3 "input.txt" ≠ .err := by
  constructor
  · rfl
  · decide

/-- Claim C1 (code bug): when a search-path directory contains a readable
file that fails to decode as an ELF image at the header level, the probe
does not continue with the next directory: `summarize_path` panics via
`unimplemented!()` and the panic propagates out of
`analyze_one_dependency` and `resolve_dependencies`.  Evaluated at a
filesystem where `d1/libn.so` is a readable non-ELF and `d2/libn.so` is
a valid ELF. -/
theorem claim_C1_dependency_probe_panics :
    analyze_one_dependency envC1 ["d1", "d2"] "libn.so" = .panicked
      ∧ resolve_dependencies envC1 ["d1", "d2"] rootC1 = some .panicked := by
  constructor
  · rfl
  · rfl

/-- Claim C7 (counterexample): with `LD_LIBRARY_PATH` set to the empty
string, the search path is *not* exactly the four sysroot directories:
`env::split_paths("")` yields one empty path, which is pushed first. -/
theorem claim_C7_counterexample :
    search_path "/sr" (some "") exElf ≠
      [pjoin "/sr" "lib", pjoin "/sr" "lib64",
       pjoin "/sr" "usr/lib", pjoin "/sr" "usr/lib64"] := by
  decide

/-- Claim C7 (amended): the search path is the `LD_LIBRARY_PATH`
contribution followed by exactly `<sysroot>/lib`, `<sysroot>/lib64`,
`<sysroot>/usr/lib`, `<sysroot>/usr/lib64` in that order; the variable
contributes nothing when unset, but when set to the empty string it
contributes a single empty path entry. -/
theorem claim_C7_amended (sysroot : String) (summ : ElfSummary) :
    search_path sysroot none summ
        = [pjoin sysroot "lib", pjoin sysroot "lib64",
           pjoin sysroot "usr/lib", pjoin sysroot "usr/lib64"]
      ∧ (∀ dirs : String, search_path sysroot (some dirs) summ
          = splitPaths dirs ++
            [pjoin sysroot "lib", pjoin sysroot "lib64",
             pjoin sysroot "usr/lib", pjoin sysroot "usr/lib64"])
      ∧ search_path sysroot (some "") summ
          = "" :: [pjoin sysroot "lib", pjoin sysroot "lib64",
                   pjoin sysroot "usr/lib", pjoin sysroot "usr/lib64"] := by
  exact ⟨rfl, fun dirs => rfl, rfl⟩

/-- Claim C8 (code bug): on the cycle `A needs B, B needs A`, with the
root decoded from `d/A` (so that the root itself is found on the search
path under the needed-name `A`), the resolver's output contains an entry
for the root's own name: its keys are `{A, B}`, not `{A, B}` minus the
root's name, and the `A` entry is a summary of the input binary's own
file, contradicting the doc comment of `resolve_dependencies`. -/
theorem claim_C8_root_included :
    summarize_path envC8 (pjoin "d" "A") = .ok rootC8
      ∧ resolve_dependencies envC8 ["d"] rootC8
          = some (.done [("A", some rootC8), ("B", some depB8)]) := by
  constructor
  · rfl
  · rfl

/-- Claim C5 (confirmed): the probe walks the search path in order and
accepts the first directory whose file `<dir>/<name>` decodes to a valid
summary, ignoring all later directories (the result does not depend on
`rest`), and the resolved summary's path is `<dir>/<name>`, i.e. under
the accepting directory. -/
theorem claim_C5_first_hit (env : Env) (name : String) (pre : List String)
    (d : String) (rest : List String) (s : ElfSummary)
    (hpre : ∀ d' ∈ pre, summarize_path env (pjoin d' name) = .err)
    (hd : summarize_path env (pjoin d name) = .ok s) :
    analyze_one_dependency env (pre ++ d :: rest) name = .found s
      ∧ s.filename = pjoin d name := by
  constructor
  · induction pre with
    | nil =>
      simp only [List.nil_append]
      unfold analyze_one_dependency
      rw [hd]
    | cons p ps ih =>
      have hp := hpre p (by simp)
      simp only [List.cons_append]
      unfold analyze_one_dependency
      rw [hp]
      exact ih fun d' hd' => hpre d' (by simp [hd'])
  · obtain ⟨c, _, hsc⟩ := summarize_path_ok env (pjoin d name) s hd
    rw [hsc]

/-- Claim C5 witness: both `D1` and `D2` hold a valid ELF named
`libn.so`; the resolved summary is the one decoded from `D1`, with its
path under `D1`. -/
theorem claim_C5_first_hit_witness :
    analyze_one_dependency envC5 ["D1", "D2"] "libn.so"
        = .found { libX with filename := pjoin "D1" "libn.so" }
      ∧ ({ libX with filename := pjoin "D1" "libn.so" } : ElfSummary).filename
          = pjoin "D1" "libn.so" :=
  claim_C5_first_hit envC5 "libn.so" [] "D1" ["D2"]
    { libX with filename := pjoin "D1" "libn.so" }
    (fun d' hd' => absurd hd' (by simp)) rfl

/-- The monadic map over `Except`: decode each element in order,
stopping at (and propagating) the first error. -/
def exceptMapM (f : DynEntry → Except Unit String) : List DynEntry → Except Unit (List String)
  | [] => .ok []
  | a :: l =>
    match f a with
    | .error e => .error e
    | .ok b =>
      match exceptMapM f l with
      | .error e => .error e
      | .ok bs => .ok (b :: bs)

/-- The `DT_NEEDED` collection loop, for any accumulator, equals the
strict decode of the `DT_NEEDED` entries in encounter order, appended to
the accumulator. -/
theorem collectNeeded_eq (strtab : List Nat) :
    ∀ (entries : List DynEntry) (acc : List String),
      collectNeeded strtab entries acc
        = ((exceptMapM (decodeNeeded strtab)
              (entries.filter fun d => d.tag == some DT_NEEDED)).map fun l => acc ++ l) := by
  intro entries
  induction entries with
  | nil => intro acc; simp [collectNeeded, exceptMapM, Except.map]
  | cons d rest ih =>
    intro acc
    cases htag : d.tag with
    | none =>
      have hf : (d.tag == some DT_NEEDED) = false := by rw [htag]; rfl
      simp only [collectNeeded, htag, List.filter_cons, hf]
      exact ih acc
    | some tag =>
      by_cases ht : tag = DT_NEEDED
      · subst ht
        simp only [collectNeeded, htag, if_true]
        have hfil : (d :: rest).filter (fun d => d.tag == some DT_NEEDED)
            = d :: rest.filter fun d => d.tag == some DT_NEEDED := by
          simp [List.filter_cons, htag]
        rw [hfil]
        cases hs : strGet strtab d.val with
        | error e =>
          cases e
          simp [exceptMapM, decodeNeeded, hs, Except.map]
        | ok bytes =>
          cases hu : utf8DecodeStrict bytes with
          | none =>
            simp [exceptMapM, decodeNeeded, hs, hu, Except.map]
          | some s =>
            simp only [hu]
            rw [ih (acc ++ [s])]
            simp only [exceptMapM, decodeNeeded, hs, hu]
            cases hres : exceptMapM (decodeNeeded strtab)
                (rest.filter fun d => d.tag == some DT_NEEDED) with
            | error e => simp [hres, Except.map]
            | ok l => simp [hres, Except.map]
      · have hf : ((some tag : Option Nat) == some DT_NEEDED) = false := by
          simp [ht]
        simp only [collectNeeded, htag, if_neg ht, List.filter_cons, hf,
          Bool.false_eq_true, if_false]
        exact ih acc

/-- Claim C9 (confirmed): the needed-list decode equals the strict UTF-8
decode of the `DT_NEEDED` entries in encounter order — any fetch or
strict-UTF-8 failure makes the whole image decode fail with an error —
and concretely, a needed-name whose bytes are the invalid UTF-8 sequence
`[0xFF]` makes the decode fail (no lossy substitution is performed). -/
theorem claim_C9_needed_strict_utf8 :
    (∀ (strtab : List Nat) (entries : List DynEntry),
        collectNeeded strtab entries []
          = exceptMapM (decodeNeeded strtab)
              (entries.filter fun d => d.tag == some DT_NEEDED))
      ∧ collectNeeded [0xFF, 0] [{ tag := some DT_NEEDED, val := 0 }] [] = .error () := by
  constructor
  · intro strtab entries
    rw [collectNeeded_eq strtab entries []]
    cases hres : exceptMapM (decodeNeeded strtab)
        (entries.filter fun d => d.tag == some DT_NEEDED) with
    | error e => simp [hres, Except.map]
    | ok l => simp [hres, Except.map]
  · rfl

/-- Claim C10 (confirmed): `VersionedSymbol::new` is total: when the name
fetch from the dynamic string table fails the name is the fixed
non-empty sentinel `"<Error>"`; when it succeeds the bytes are decoded
lossily; the version of every produced symbol is `None`; and every
symbol in both outputs (imports and exports) of the `.dynsym` iteration
is built this way, so it has version `None` and uses the same
sentinel. -/
theorem claim_C10_versioned_symbol_total (dyn_strings : List Nat) (sym : SymEntry) :
    (VersionedSymbol.new dyn_strings sym).version = none
      ∧ "<Error>" ≠ ""
      ∧ (∀ e : Unit, strGet dyn_strings sym.st_name = .error e →
          (VersionedSymbol.new dyn_strings sym).name = "<Error>")
      ∧ (∀ bytes : List Nat, strGet dyn_strings sym.st_name = .ok bytes →
          (VersionedSymbol.new dyn_strings sym).name = utf8DecodeLossy bytes)
      ∧ (∀ symtab : List SymEntry,
          (∀ r ∈ (analyzeSymbols dyn_strings symtab).1, r.symbol.version = none)
            ∧ (∀ d ∈ (analyzeSymbols dyn_strings symtab).2, d.symbol.version = none)) := by
  refine ⟨rfl, by decide, ?_, ?_, ?_⟩
  · intro e he
    simp [VersionedSymbol.new, he]
  · intro bytes hb
    simp [VersionedSymbol.new, hb]
  · intro symtab
    induction symtab with
    | nil =>
      exact ⟨fun r hr => absurd hr (by simp [analyzeSymbols]),
             fun d hd => absurd hd (by simp [analyzeSymbols])⟩
    | cons s rest ih =>
      constructor
      · intro r hr
        simp only [analyzeSymbols] at hr
        by_cases h1 : (VersionedSymbol.new dyn_strings s).name = ""
        · rw [if_pos h1] at hr
          exact ih.1 r hr
        · rw [if_neg h1] at hr
          by_cases h2 : s.is_undefined = true
          · simp only [h2, if_true] at hr
            rcases List.mem_cons.mp hr with h | h
            · rw [h]; rfl
            · exact ih.1 r h
          · simp only [h2, Bool.false_eq_true, if_false] at hr
            exact ih.1 r hr
      · intro d hd
        simp only [analyzeSymbols] at hd
        by_cases h1 : (VersionedSymbol.new dyn_strings s).name = ""
        · rw [if_pos h1] at hd
          exact ih.2 d hd
        · rw [if_neg h1] at hd
          by_cases h2 : s.is_undefined = true
          · simp only [h2, if_true] at hd
            exact ih.2 d hd
          · simp only [h2, Bool.false_eq_true, if_false] at hd
            rcases List.mem_cons.mp hd with h | h
            · rw [h]; rfl
            · exact ih.2 d h

/-- Claim C10 witness: at the empty string table every offset is out of
bounds, so the symbol built from a zero entry carries the sentinel name
and no version. -/
theorem claim_C10_versioned_symbol_total_witness :
    (VersionedSymbol.new [] ⟨0, 0, 0, 0, 0⟩).version = none
      ∧ (VersionedSymbol.new [] ⟨0, 0, 0, 0, 0⟩).name = "<Error>" := by
  have h := claim_C10_versioned_symbol_total [] ⟨0, 0, 0, 0, 0⟩
  exact ⟨h.1, h.2.2.1 () rfl⟩

/-- Value of `getLast?` of a cons: the last element of the tail if any, else the
head. -/
theorem getLast?_cons_orElse {α : Type} (a : α) (l : List α) :
    (a :: l).getLast? = (l.getLast? <|> some a) := by
  cases l with
  | nil => simp
  | cons b bs =>
    rw [List.getLast?_cons_cons]
    have hs : (b :: bs).getLast?.isSome := by
      rw [List.getLast?_isSome]
      simp
    cases hx : (b :: bs).getLast? with
    | none => rw [hx] at hs; simp at hs
    | some v => simp

/-- Effect of one export-insertion step on a fixed key. -/
theorem symLookup_step (needed_syms : List String) (dep : ElfSummary)
    (e : ExportedDynamicSymbol) (m : SymMap) (k : VersionedSymbol) :
    symLookup (if e.symbol.name ∈ needed_syms then symInsert e.symbol dep m else m) k
      = if (e.symbol == k && decide (e.symbol.name ∈ needed_syms)) = true then some dep
        else symLookup m k := by
  by_cases hn : e.symbol.name ∈ needed_syms
  · rw [if_pos hn]
    by_cases hk : k = e.symbol
    · have : (e.symbol == k && decide (e.symbol.name ∈ needed_syms)) = true := by
        simp [hk, hn]
      rw [if_pos this]
      simp [symInsert, symLookup, if_pos hk]
    · have : (e.symbol == k && decide (e.symbol.name ∈ needed_syms)) = false := by
        simp [hn]
        intro h
        exact absurd h.symm hk
      rw [this]
      simp only [Bool.false_eq_true, if_false]
      simp [symInsert, symLookup, hk]
  · rw [if_neg hn]
    have : (e.symbol == k && decide (e.symbol.name ∈ needed_syms)) = false := by
      simp [hn]
    rw [this]
    simp only [Bool.false_eq_true, if_false]

/-- Effect of the whole export fold of one dependency on a fixed key:
`some dep` if any needed export matches the key, else unchanged. -/
theorem symLookup_exports_foldl (needed_syms : List String) (dep : ElfSummary)
    (k : VersionedSymbol) :
    ∀ (es : List ExportedDynamicSymbol) (m : SymMap),
      symLookup (es.foldl (fun acc defined_sym =>
          if defined_sym.symbol.name ∈ needed_syms then symInsert defined_sym.symbol dep acc
          else acc) m) k
        = if (es.any fun e => e.symbol == k && decide (e.symbol.name ∈ needed_syms)) = true
          then some dep else symLookup m k := by
  intro es
  induction es with
  | nil => intro m; simp
  | cons e es ih =>
    intro m
    rw [List.foldl_cons, ih, symLookup_step]
    by_cases hw : (e.symbol == k && decide (e.symbol.name ∈ needed_syms)) = true
    · have hany : ((e :: es).any fun e => e.symbol == k && decide (e.symbol.name ∈ needed_syms))
          = true := by
        simp only [List.any_cons, hw, Bool.true_or]
      rw [hany]
      simp only [if_true]
      by_cases ha : (es.any fun e => e.symbol == k && decide (e.symbol.name ∈ needed_syms)) = true
      · rw [ha]; simp
      · simp only [Bool.not_eq_true] at ha
        rw [ha]
        simp only [Bool.false_eq_true, if_false, hw, if_true]
    · simp only [Bool.not_eq_true] at hw
      have hany : ((e :: es).any fun e => e.symbol == k && decide (e.symbol.name ∈ needed_syms))
          = (es.any fun e => e.symbol == k && decide (e.symbol.name ∈ needed_syms)) := by
        simp only [List.any_cons, hw, Bool.false_or]
      rw [hany, hw]
      simp only [Bool.false_eq_true, if_false]

/-- Effect of one dependency's `resolve_symbols` pass on a fixed key. -/
theorem symLookup_insertProvides (needed_syms : List String) (m : SymMap)
    (dep : ElfSummary) (k : VersionedSymbol) :
    symLookup (insertProvides needed_syms m dep) k
      = if writesSym needed_syms dep k = true then some dep else symLookup m k := by
  unfold insertProvides writesSym
  cases h : dep.binary_type with
  | Static => simp
  | Dynamic dyn_data => rw [symLookup_exports_foldl]

/-- Looking a key up after the dependency fold of `resolve_symbols`
yields the last dependency that writes it, else the accumulator's
binding. -/
theorem symLookup_deps_foldl (needed_syms : List String) (k : VersionedSymbol) :
    ∀ (deps : List ElfSummary) (m : SymMap),
      symLookup (deps.foldl (insertProvides needed_syms) m) k
        = ((deps.filter fun d => writesSym needed_syms d k).getLast? <|> symLookup m k) := by
  intro deps
  induction deps with
  | nil => intro m; simp
  | cons d ds ih =>
    intro m
    rw [List.foldl_cons, ih, symLookup_insertProvides]
    by_cases hw : writesSym needed_syms d k = true
    · have hfil : ((d :: ds).filter fun d => writesSym needed_syms d k)
          = d :: ds.filter fun d => writesSym needed_syms d k := by
        simp [List.filter_cons, hw]
      rw [hfil, getLast?_cons_orElse, if_pos hw]
      cases hx : (ds.filter fun d => writesSym needed_syms d k).getLast? with
      | none => simp
      | some v => simp
    · simp only [Bool.not_eq_true] at hw
      have hfil : ((d :: ds).filter fun d => writesSym needed_syms d k)
          = ds.filter fun d => writesSym needed_syms d k := by
        simp [List.filter_cons, hw]
      rw [hfil, hw]
      simp only [Bool.false_eq_true, if_false]

/-- Shared characterization: a `resolve_symbols` lookup yields the last
dependency in the sequence that writes the key. -/
theorem resolve_symbols_lookup (dyn_sym_refs : List DynamicSymbolReference)
    (deps : List ElfSummary) (k : VersionedSymbol) :
    symLookup (resolve_symbols dyn_sym_refs deps) k
      = (deps.filter fun d => writesSym (neededNames dyn_sym_refs) d k).getLast? := by
  unfold resolve_symbols
  rw [symLookup_deps_foldl]
  cases hx : (deps.filter fun d => writesSym (neededNames dyn_sym_refs) d k).getLast? with
  | none => simp [symLookup]
  | some v => simp

/-- Claim C6 (confirmed): for any imports and any sequence of dependency
images (in particular the Resolver's output-map order, lexicographic by
needed-name), the map built by `resolve_symbols` assigns each key to the
*last* dependency in the sequence that exports a matching needed symbol
— the last writer always wins — and to nothing if no dependency does. -/
theorem claim_C6_last_writer_wins (dyn_sym_refs : List DynamicSymbolReference)
    (deps : List ElfSummary) (k : VersionedSymbol) :
    symLookup (resolve_symbols dyn_sym_refs deps) k
      = (deps.filter fun d => writesSym (neededNames dyn_sym_refs) d k).getLast? :=
  resolve_symbols_lookup dyn_sym_refs deps k

/-- Lookup in an appended symbol map: the left (more recent) part wins. -/
theorem symLookup_append (m₁ m₂ : SymMap) (k : VersionedSymbol) :
    symLookup (m₁ ++ m₂) k = (symLookup m₁ k <|> symLookup m₂ k) := by
  induction m₁ with
  | nil => simp [symLookup]
  | cons p rest ih =>
    obtain ⟨k', v⟩ := p
    by_cases hk : k = k'
    · simp [symLookup, hk]
    · simp only [List.cons_append, symLookup, if_neg hk]
      exact ih

/-- A key present in the accumulator stays present through the
`App::new` dependency loop (appends only add bindings). -/
theorem appStep_foldl_preserves (all_libs : List ElfSummary) (k : VersionedSymbol) :
    ∀ (libs : List ElfSummary) (acc : SymMap),
      (symLookup acc k).isSome →
      (symLookup (libs.foldl (appStep all_libs) acc) k).isSome := by
  intro libs
  induction libs with
  | nil => intro acc h; exact h
  | cons l ls ih =>
    intro acc h
    rw [List.foldl_cons]
    apply ih
    unfold appStep
    cases l.binary_type with
    | Static => exact h
    | Dynamic dyn_data =>
      unfold btAppend
      rw [symLookup_append]
      cases hx : symLookup (resolve_symbols dyn_data.dynamic_symbol_refs all_libs) k with
      | none => simpa using h
      | some v => simp

/-- If some dynamic `lib` among `libs` resolves key `k` in its own
`resolve_symbols` pass, then after the `App::new` loop over `libs` the
key is present. -/
theorem appStep_foldl_hits (all_libs : List ElfSummary) (dd : DynamicData)
    (k : VersionedSymbol) (lib : ElfSummary)
    (hdyn : lib.binary_type = .Dynamic dd)
    (htarget : (symLookup (resolve_symbols dd.dynamic_symbol_refs all_libs) k).isSome) :
    ∀ (libs : List ElfSummary) (acc : SymMap), lib ∈ libs →
      (symLookup (libs.foldl (appStep all_libs) acc) k).isSome := by
  intro libs
  induction libs with
  | nil => intro acc h; cases h
  | cons l ls ih =>
    intro acc hmem
    rw [List.foldl_cons]
    rcases List.mem_cons.mp hmem with h | h
    · subst h
      apply appStep_foldl_preserves
      unfold appStep
      rw [hdyn]
      unfold btAppend
      rw [symLookup_append]
      cases hx : symLookup (resolve_symbols dd.dynamic_symbol_refs all_libs) k with
      | none => rw [hx] at htarget; simp at htarget
      | some v => simp
    · exact ih (appStep all_libs acc l) h

/-- Claim C4 (confirmed, against the merge in `App::new`): after the root
is decoded, the search path composed and the dependencies resolved, the
engine runs the SymbolLinker once over the root's imports and once per
successfully resolved dependency's imports and merges all maps; hence
every import of every resolved dependency that some resolved dependency
exports appears (by name) in the merged `provider_of` — not only
imports of the root. -/
theorem claim_C4_provider_covers_dependency_imports
    (elf_summary : ElfSummary) (resolved_deps : ResMap)
    (lib : ElfSummary) (dd : DynamicData) (r : DynamicSymbolReference)
    (provider : ElfSummary) (pd : DynamicData) (e : ExportedDynamicSymbol)
    (hlib : lib ∈ all_libs_of resolved_deps)
    (hdyn : lib.binary_type = .Dynamic dd)
    (hr : r ∈ dd.dynamic_symbol_refs)
    (hprov : provider ∈ all_libs_of resolved_deps)
    (hpdyn : provider.binary_type = .Dynamic pd)
    (he : e ∈ pd.provided_dynamic_symbols)
    (hname : e.symbol.name = r.symbol.name) :
    ∃ k : VersionedSymbol, k.name = r.symbol.name
      ∧ (symLookup (app_symbol_resolutions elf_summary resolved_deps) k).isSome := by
  refine ⟨e.symbol, hname, ?_⟩
  have hwrites : writesSym (neededNames dd.dynamic_symbol_refs) provider e.symbol = true := by
    unfold writesSym
    rw [hpdyn]
    rw [List.any_eq_true]
    refine ⟨e, he, ?_⟩
    have hmem : e.symbol.name ∈ neededNames dd.dynamic_symbol_refs := by
      rw [hname]
      exact List.mem_map.mpr ⟨r, hr, rfl⟩
    simp [hmem]
  have htarget :
      (symLookup (resolve_symbols dd.dynamic_symbol_refs (all_libs_of resolved_deps))
        e.symbol).isSome := by
    rw [resolve_symbols_lookup]
    rw [List.getLast?_isSome]
    exact List.ne_nil_of_mem (List.mem_filter.mpr ⟨hprov, hwrites⟩)
  unfold app_symbol_resolutions
  exact appStep_foldl_hits (all_libs_of resolved_deps) dd e.symbol lib hdyn htarget
    (all_libs_of resolved_deps) _ hlib

/-- Claim C4 witness: a static root with two resolved dependencies, one
importing `foo` and the other exporting it: `foo` appears in the merged
map even though the root imports nothing. -/
theorem claim_C4_provider_covers_dependency_imports_witness :
    ∃ k : VersionedSymbol, k.name = "foo"
      ∧ (symLookup (app_symbol_resolutions rootStatic resolvedC4) k).isSome :=
  claim_C4_provider_covers_dependency_imports rootStatic resolvedC4
    depImporter ⟨[refFoo], [], []⟩ refFoo
    depExporter ⟨[], [expFoo], []⟩ expFoo
    (by decide) rfl (by decide) (by decide) rfl (by decide) rfl

/-- A duplicate-free list contained in another list is no longer than
it. -/
theorem length_le_of_nodup_subset {l u : List String} (hn : l.Nodup) (hs : l ⊆ u) :
    l.length ≤ u.length := by
  have h1 : l.toFinset.card = l.length := List.toFinset_card_of_nodup hn
  have h3 : l.toFinset ⊆ u.toFinset := by
    intro x hx
    rw [List.mem_toFinset] at hx ⊢
    exact hs hx
  have h4 := Finset.card_le_card h3
  have h5 : u.toFinset.card ≤ u.length := u.toFinset_card_le
  omega

/-- Enqueueing a batch of needed-names adds exactly as many work items
as seen items (each fresh name adds one of each). -/
theorem foldl_addDep_len (l : List String) :
    ∀ q : WorkQueue,
      (l.foldl addDep q).work_items.length + q.seen_items.length
        = q.work_items.length + (l.foldl addDep q).seen_items.length := by
  induction l with
  | nil => intro q; simp
  | cons a l ih =>
    intro q
    rw [List.foldl_cons]
    have h := ih (addDep q a)
    by_cases hm : a ∈ q.seen_items
    · simp only [addDep, if_pos hm] at h ⊢
      exact h
    · simp only [addDep, if_neg hm] at h ⊢
      simp only [List.length_append, List.length_cons, List.length_nil] at h ⊢
      omega

/-- The seen set only grows while enqueueing. -/
theorem foldl_addDep_seen_mono (l : List String) :
    ∀ (q : WorkQueue) (x : String),
      x ∈ q.seen_items → x ∈ (l.foldl addDep q).seen_items := by
  induction l with
  | nil => intro q x h; exact h
  | cons a l ih =>
    intro q x h
    rw [List.foldl_cons]
    apply ih
    unfold addDep
    by_cases hm : a ∈ q.seen_items
    · rw [if_pos hm]; exact h
    · rw [if_neg hm]; exact List.mem_cons_of_mem _ h

/-- The seen set never shrinks in length while enqueueing. -/
theorem foldl_addDep_seen_len (l : List String) :
    ∀ q : WorkQueue,
      q.seen_items.length ≤ (l.foldl addDep q).seen_items.length := by
  induction l with
  | nil => intro q; exact Nat.le_refl _
  | cons a l ih =>
    intro q
    rw [List.foldl_cons]
    refine Nat.le_trans ?_ (ih (addDep q a))
    unfold addDep
    by_cases hm : a ∈ q.seen_items
    · rw [if_pos hm]
    · rw [if_neg hm]; simp

/-- Everything seen after enqueueing was seen before or is in the new
batch. -/
theorem foldl_addDep_seen_sub (l : List String) :
    ∀ (q : WorkQueue) (x : String),
      x ∈ (l.foldl addDep q).seen_items → x ∈ q.seen_items ∨ x ∈ l := by
  induction l with
  | nil => intro q x h; exact Or.inl h
  | cons a l ih =>
    intro q x h
    rw [List.foldl_cons] at h
    rcases ih (addDep q a) x h with h1 | h1
    · unfold addDep at h1
      by_cases hm : a ∈ q.seen_items
      · rw [if_pos hm] at h1; exact Or.inl h1
      · rw [if_neg hm] at h1
        rcases List.mem_cons.mp h1 with h2 | h2
        · exact Or.inr (by rw [h2]; exact List.mem_cons_self _ _)
        · exact Or.inl h2
    · exact Or.inr (List.mem_cons_of_mem _ h1)

/-- Enqueueing preserves freedom from duplicates of the seen set (a name
is only added when not yet present). -/
theorem foldl_addDep_nodup (l : List String) :
    ∀ q : WorkQueue, q.seen_items.Nodup → (l.foldl addDep q).seen_items.Nodup := by
  induction l with
  | nil => intro q h; exact h
  | cons a l ih =>
    intro q h
    rw [List.foldl_cons]
    apply ih
    unfold addDep
    by_cases hm : a ∈ q.seen_items
    · rw [if_pos hm]; exact h
    · rw [if_neg hm]; exact List.Nodup.cons hm h

/-- Enqueueing preserves the invariant that every queued name has been
marked seen (each name is marked seen at the moment it is enqueued). -/
theorem foldl_addDep_work_sub (l : List String) :
    ∀ q : WorkQueue, (∀ x ∈ q.work_items, x ∈ q.seen_items) →
      ∀ x ∈ (l.foldl addDep q).work_items, x ∈ (l.foldl addDep q).seen_items := by
  induction l with
  | nil => intro q h; exact h
  | cons a l ih =>
    intro q h
    rw [List.foldl_cons]
    apply ih
    unfold addDep
    by_cases hm : a ∈ q.seen_items
    · rw [if_pos hm]; exact h
    · rw [if_neg hm]
      intro x hx
      rcases List.mem_append.mp hx with h1 | h1
      · exact List.mem_cons_of_mem _ (h x h1)
      · rcases List.mem_singleton.mp h1 with h2
        rw [h2]; exact List.mem_cons_self _ _

/-- A classification found by lookup is an entry of the filesystem. -/
theorem classify_mem : ∀ (env : Env) (q : String) (c : FileClass),
    classify env q = some c → (q, c) ∈ env := by
  intro env
  induction env with
  | nil => intro q c h; cases h
  | cons pc rest ih =>
    intro q c h
    obtain ⟨p, fc⟩ := pc
    unfold classify at h
    by_cases hq : q = p
    · rw [if_pos hq] at h
      injection h with h
      rw [hq, h]
      exact List.mem_cons_self _ _
    · rw [if_neg hq] at h
      exact List.mem_cons_of_mem _ (ih q c h)

/-- The needed-names of any decodable image of the filesystem are
collected in `envDeps`. -/
theorem envDeps_mem : ∀ (env : Env) (p : String) (s : ElfSummary),
    (p, FileClass.elfOk s) ∈ env → ∀ x ∈ depsOf s, x ∈ envDeps env := by
  intro env
  induction env with
  | nil => intro p s h; cases h
  | cons pc rest ih =>
    intro p s h x hx
    rcases List.mem_cons.mp h with h1 | h1
    · rw [← h1]
      unfold envDeps
      exact List.mem_append_left _ hx
    · obtain ⟨p', fc⟩ := pc
      cases fc with
      | notElf => unfold envDeps; exact ih p s h1 x hx
      | elfBad => unfold envDeps; exact ih p s h1 x hx
      | elfOk s' =>
        unfold envDeps
        exact List.mem_append_right _ (ih p s h1 x hx)

/-- Updating the recorded filename does not change the needed list. -/
theorem depsOf_set_filename (c : ElfSummary) (p : String) :
    depsOf { c with filename := p } = depsOf c := rfl

/-- A found probe result comes from a decodable file of the filesystem,
with the probed path stamped in. -/
theorem analyze_found (env : Env) (name : String) :
    ∀ (sp : List String) (s : ElfSummary),
      analyze_one_dependency env sp name = .found s →
      ∃ p c, classify env p = some (FileClass.elfOk c) ∧ s = { c with filename := p } := by
  intro sp
  induction sp with
  | nil => intro s h; cases h
  | cons dir rest ih =>
    intro s h
    unfold analyze_one_dependency at h
    cases hs : summarize_path env (pjoin dir name) with
    | ok s' =>
      rw [hs] at h
      injection h with h
      obtain ⟨c, hc, hsc⟩ := summarize_path_ok env (pjoin dir name) s' hs
      exact ⟨pjoin dir name, c, hc, by rw [← h]; exact hsc⟩
    | err => rw [hs] at h; exact ih s h
    | panicked => rw [hs] at h; cases h

/-- The work loop finishes (normally or by propagating a panic) whenever
its fuel exceeds the measure `2·(|U| − |seen|) + |queue|`, where `U` is
any duplicate-free universe closed under the filesystem's needed-names. -/
theorem resolveLoop_isSome (env : Env) (sp : List String) (U : List String)
    (hUc : ∀ p c, classify env p = some (FileClass.elfOk c) → ∀ x ∈ depsOf c, x ∈ U) :
    ∀ (fuel : Nat) (q : WorkQueue) (res : ResMap),
      (∀ x ∈ q.work_items, x ∈ q.seen_items) →
      q.seen_items.Nodup →
      (∀ x ∈ q.seen_items, x ∈ U) →
      2 * (U.length - q.seen_items.length) + q.work_items.length < fuel →
      (resolveLoopFuel env sp fuel q res).isSome := by
  intro fuel
  induction fuel with
  | zero =>
    intro q res _ _ _ hm
    exact absurd hm (Nat.not_lt_zero _)
  | succ n ih =>
    intro q res hws hnd hsU hm
    obtain ⟨w, seen⟩ := q
    simp only at hws hnd hsU hm
    cases w with
    | nil => rfl
    | cons dep rest =>
      have hstep : resolveLoopFuel env sp (n + 1) ⟨dep :: rest, seen⟩ res
          = match analyze_one_dependency env sp dep with
            | .panicked => some .panicked
            | .missing => resolveLoopFuel env sp n ⟨rest, seen⟩ (btInsert dep none res)
            | .found dep_summary =>
              resolveLoopFuel env sp n (WorkQueue.add_dependencies ⟨rest, seen⟩ dep_summary)
                (btInsert dep (some dep_summary) res) := rfl
      rw [hstep]
      have hrestw : ∀ x ∈ rest, x ∈ seen := fun x hx =>
        hws x (List.mem_cons_of_mem _ hx)
      cases hp : analyze_one_dependency env sp dep with
      | panicked => rfl
      | missing =>
        apply ih
        · exact hrestw
        · exact hnd
        · exact hsU
        · simp only [List.length_cons] at hm
          show 2 * (U.length - seen.length) + rest.length < n
          omega
      | found dep_summary =>
        obtain ⟨p, c, hcls, hsc⟩ := analyze_found env dep sp dep_summary hp
        have hdeps : ∀ x ∈ depsOf dep_summary, x ∈ U := by
          rw [hsc, depsOf_set_filename]
          exact hUc p c hcls
        unfold WorkQueue.add_dependencies
        apply ih
        · exact foldl_addDep_work_sub (depsOf dep_summary) ⟨rest, seen⟩ hrestw
        · exact foldl_addDep_nodup _ _ hnd
        · intro x hx
          rcases foldl_addDep_seen_sub _ _ x hx with h | h
          · exact hsU x h
          · exact hdeps x h
        · have hlen := foldl_addDep_len (depsOf dep_summary) ⟨rest, seen⟩
          have hnd' := foldl_addDep_nodup (depsOf dep_summary) ⟨rest, seen⟩ hnd
          have hsub : ∀ x ∈ ((depsOf dep_summary).foldl addDep
              ⟨rest, seen⟩).seen_items, x ∈ U := by
            intro x hx
            rcases foldl_addDep_seen_sub _ _ x hx with h | h
            · exact hsU x h
            · exact hdeps x h
          have h1 := length_le_of_nodup_subset hnd' hsub
          have hlen' : ((depsOf dep_summary).foldl addDep ⟨rest, seen⟩).work_items.length
                + seen.length
              = rest.length
                + ((depsOf dep_summary).foldl addDep ⟨rest, seen⟩).seen_items.length := hlen
          have h2' : seen.length
              ≤ ((depsOf dep_summary).foldl addDep ⟨rest, seen⟩).seen_items.length :=
            foldl_addDep_seen_len (depsOf dep_summary) ⟨rest, seen⟩
          simp only [List.length_cons] at hm
          omega

/-- Claim C2 (confirmed): for every finite filesystem, search path and
root summary, `resolve_dependencies` finishes — including on cyclic
needed graphs — because a needed-name enters the seen set at the moment
it is enqueued, so no name is ever enqueued twice: the fuel bound
`3·|universe| + 1` always suffices. -/
theorem claim_C2_resolver_terminates (env : Env) (sp : List String) (summ : ElfSummary) :
    (resolve_dependencies env sp summ).isSome := by
  unfold resolve_dependencies fuelBound
  have hUc : ∀ p c, classify env p = some (FileClass.elfOk c) →
      ∀ x ∈ depsOf c, x ∈ uniNames env summ := by
    intro p c hcls x hx
    unfold uniNames
    rw [List.mem_dedup]
    exact List.mem_append_right _ (envDeps_mem env p c (classify_mem env p _ hcls) x hx)
  have hseenU : ∀ x ∈ ((depsOf summ).foldl addDep ⟨[], []⟩).seen_items,
      x ∈ uniNames env summ := by
    intro x hx
    rcases foldl_addDep_seen_sub _ _ x hx with h | h
    · cases h
    · unfold uniNames
      rw [List.mem_dedup]
      exact List.mem_append_left _ h
  unfold WorkQueue.add_dependencies
  apply resolveLoop_isSome env sp (uniNames env summ) hUc
  · apply foldl_addDep_work_sub
    intro x hx
    cases hx
  · exact foldl_addDep_nodup _ _ List.nodup_nil
  · exact hseenU
  · have hlen := foldl_addDep_len (depsOf summ) ⟨[], []⟩
    have hnd := foldl_addDep_nodup (depsOf summ) ⟨[], []⟩ List.nodup_nil
    have h1 := length_le_of_nodup_subset hnd hseenU
    simp only [List.length_nil] at hlen
    omega

end BinaryWalkr
